import Mathlib

/-!
Verification of the PAWS data pipeline notebook (load_standardized_tables).
Strings are modelled as lists of characters.  The notebook functions
clean_entries, strip_symbols and combine_address_columns are embedded as
executable Lean functions; missing / NaN cells are modelled as none.
-/

abbrev Str := List Char

/-- Whitespace class shared by the Python strip call and the regex class
of whitespace characters used in the re.sub call of clean_entries. -/
def isPySpace (c : Char) : Bool :=
  c == ' ' || c == '\t' || c == '\n' || c == '\r' || c == '\x0b' || c == '\x0c'

/-- ASCII lowercasing of one character, the effect of the Python lower call
on the character sets handled by this pipeline. -/
def charLower (c : Char) : Char :=
  if 65 ≤ c.toNat ∧ c.toNat ≤ 90 then Char.ofNat (c.toNat + 32) else c

/-- Models the lower step of clean_entries. -/
def pyLower (s : Str) : Str := s.map charLower

/-- Drops trailing whitespace, the right half of the Python strip call. -/
def dropTrail : Str → Str
  | [] => []
  | c :: r =>
    match dropTrail r with
    | [] => if isPySpace c then [] else [c]
    | d :: t => c :: d :: t

/-- Models the strip step of clean_entries: removes leading and trailing
whitespace. -/
def pyStrip (s : Str) : Str := dropTrail (s.dropWhile isPySpace)

/-- Maps every whitespace character to a plain space. -/
def wsToSpace (c : Char) : Char := if isPySpace c then ' ' else c

/-- Collapses every run of adjacent spaces to a single space. -/
def squeeze : Str → Str
  | [] => []
  | [c] => [c]
  | c :: d :: r => if c = ' ' ∧ d = ' ' then squeeze (d :: r) else c :: squeeze (d :: r)

/-- Models the re.sub step of clean_entries: each maximal run of
whitespace characters becomes a single space. -/
def pySub (s : Str) : Str := squeeze (s.map wsToSpace)

/-- Whitespace normalisation shared by the stages of clean_entries that
follow the lowering step. -/
def normWS (s : Str) : Str := pySub (pyStrip s)

/-- The notebook function clean_entries: a null cell becomes the empty
string, then the value is lowercased, stripped of leading and trailing
whitespace, and interior whitespace runs are collapsed to one space. -/
def clean_entries (entry : Option Str) : Str :=
  normWS (pyLower (entry.getD []))

/-- Default value of the kept_chars argument of strip_symbols in the
notebook: dash, space, digits and lowercase letters. -/
def default_kept_chars : Str :=
  ['-', ' ', '1', '2', '3', '4', '5', '6', '7', '8', '9', '0',
   'a', 'b', 'c', 'd', 'e', 'f', 'g', 'h', 'i', 'j', 'k', 'l', 'm',
   'n', 'o', 'p', 'q', 'r', 's', 't', 'u', 'v', 'w', 'x', 'y', 'z']

/-- The notebook function strip_symbols: keeps exactly the characters of
the passed string that belong to kept_chars, in order. -/
def strip_symbols (char_string : Str) (kept_chars : Str) : Str :=
  char_string.filter (fun c => decide (c ∈ kept_chars))

/-- Normalise-and-filter applied to one raw address component, the
transform the combine_address_columns lambda applies to each operand. -/
def addr_component_key (v : Option Str) : Str :=
  strip_symbols (clean_entries v) default_kept_chars

/-- The notebook function combine_address_columns: a functools.reduce of
the lambda joining two cleaned and symbol-stripped columns with a space,
followed by a final application of clean_entries.  A reduce over an empty
sequence raises in Python, which is modelled as none. -/
def combine_address_columns : List (Option Str) → Option Str
  | [] => none
  | col :: cols =>
    some (clean_entries (cols.foldl
      (fun col_1 col_2 => some (addr_component_key col_1 ++ ' ' :: addr_component_key col_2))
      col))

/-- Join a list of strings with single spaces between consecutive items. -/
def joinSpaces : List Str → Str
  | [] => []
  | [x] => x
  | x :: y :: xs => x ++ ' ' :: joinSpaces (y :: xs)

/-- Reference definition following the words of the spec: normalize and
symbol-filter each component independently, join the results with single
spaces, and re-normalize the joined result. -/
def canonicalize_components_spec (cols : List (Option Str)) : Str :=
  clean_entries (some (joinSpaces (cols.map addr_component_key)))

/-- First five characters of a zip cell after replacing a null cell with
the empty string, the pandas fillna, str cast and str slicing of the
notebook. -/
def truncate_zip (z : Option Str) : Str := (z.getD []).take 5

/-- Raw petpoint columns used by the match-key cells of the notebook. -/
structure PetpointRecord where
  outcome_person_name : Option Str
  out_email : Option Str
  out_cell_phone : Option Str
  out_home_phone : Option Str
  out_street_name : Option Str
  out_street_type : Option Str
  out_street_direction : Option Str
  out_street_direction2 : Option Str
  out_unit_number : Option Str
  out_city : Option Str
  out_province : Option Str
  out_postal_code : Option Str

def petpoint_match_name (r : PetpointRecord) : Str :=
  strip_symbols (clean_entries r.outcome_person_name) default_kept_chars

def petpoint_match_email (r : PetpointRecord) : Str :=
  clean_entries r.out_email

def petpoint_match_cell (r : PetpointRecord) : Str :=
  strip_symbols (clean_entries r.out_cell_phone) default_kept_chars

def petpoint_match_phone (r : PetpointRecord) : Str :=
  strip_symbols (clean_entries r.out_home_phone) default_kept_chars

def petpoint_addr_components (r : PetpointRecord) : List (Option Str) :=
  [r.out_street_name, r.out_street_type, r.out_street_direction, r.out_street_direction2,
   r.out_unit_number, r.out_city, r.out_province, some (truncate_zip r.out_postal_code)]

/-- The petpoint match_address_list cell: the combined address string is
passed straight to the external expand_address boundary; an erroring
boundary is modelled as none and propagates. -/
def petpoint_match_address_list (expand : Str → Option (List Str)) (r : PetpointRecord) :
    Option (List Str) :=
  (combine_address_columns (petpoint_addr_components r)).bind expand

/-- Raw volgistics columns used by the match-key cells of the notebook. -/
structure VolgisticsRecord where
  last_name_first_name : Option Str
  email : Option Str
  cell : Option Str
  home : Option Str
  street_1 : Option Str
  street_2 : Option Str
  street_3 : Option Str
  city : Option Str
  state : Option Str
  zip : Option Str

def volgistics_match_name (r : VolgisticsRecord) : Str :=
  strip_symbols (clean_entries r.last_name_first_name) default_kept_chars

def volgistics_match_email (r : VolgisticsRecord) : Str :=
  clean_entries r.email

def volgistics_match_cell (r : VolgisticsRecord) : Str :=
  strip_symbols (clean_entries r.cell) default_kept_chars

def volgistics_match_phone (r : VolgisticsRecord) : Str :=
  strip_symbols (clean_entries r.home) default_kept_chars

def volgistics_addr_components (r : VolgisticsRecord) : List (Option Str) :=
  [r.street_1, r.street_2, r.street_3, r.city, r.state, some (truncate_zip r.zip)]

/-- Raw salesforce contact columns used by the match-key cells of the
notebook. -/
structure SfContactRecord where
  last_name : Option Str
  first_name : Option Str
  email : Option Str
  mobile : Option Str
  phone : Option Str
  mailing_street : Option Str
  mailing_city : Option Str
  mailing_state_province : Option Str
  mailing_zip_postal_code : Option Str

def sf_match_name (r : SfContactRecord) : Str :=
  strip_symbols (clean_entries r.last_name) default_kept_chars ++
    ' ' :: strip_symbols (clean_entries r.first_name) default_kept_chars

def sf_match_email (r : SfContactRecord) : Str :=
  clean_entries r.email

def sf_match_cell (r : SfContactRecord) : Str :=
  strip_symbols (clean_entries r.mobile) default_kept_chars

def sf_match_phone (r : SfContactRecord) : Str :=
  strip_symbols (clean_entries r.phone) default_kept_chars

def sf_addr_components (r : SfContactRecord) : List (Option Str) :=
  [r.mailing_street, r.mailing_city, r.mailing_state_province,
   some (truncate_zip r.mailing_zip_postal_code)]

/-- Modelled from the spec: the MatchKeySet record of section 3 of the
spec; the cross-source identity linker of section 4.5 is described in the
spec but absent from the notebook. -/
structure MatchKeySet where
  name : Str
  email : Str
  cell : Str
  phone : Str
  address_variants : List Str
deriving DecidableEq

/-- Modelled from the spec: a MasterIdentity row with its identity id,
the unioned match keys, and the links recorded so far as pairs of source
name and source row id. -/
structure MasterIdentity where
  identity_id : Nat
  keys : MatchKeySet
  links : List (Str × Nat)
deriving DecidableEq

/-- Modelled from the spec: at least one non-empty address variant shared
by the two candidate sequences; the empty string is never counted as an
intersecting candidate. -/
def variantsIntersect (xs ys : List Str) : Bool :=
  xs.any (fun a => !a.isEmpty && ys.contains a)

/-- Modelled from the spec: the exact-match rules of section 4.5 in
priority order: email, cell against cell or phone, phone against cell or
phone, then non-empty name plus an address-variant intersection. -/
def keyMatches (k : MatchKeySet) (m : MasterIdentity) : Bool :=
  (!k.email.isEmpty && k.email == m.keys.email) ||
  (!k.cell.isEmpty && (k.cell == m.keys.cell || k.cell == m.keys.phone)) ||
  (!k.phone.isEmpty && (k.phone == m.keys.cell || k.phone == m.keys.phone)) ||
  (!k.name.isEmpty && k.name == m.keys.name &&
    variantsIntersect k.address_variants m.keys.address_variants)

/-- Modelled from the spec: only an empty field is filled by a later
record, an existing non-empty value is never overwritten. -/
def fillEmpty (old new : Str) : Str := if old.isEmpty then new else old

/-- Modelled from the spec: union of the stored keys with the keys of a
newly linked record; the variant sequence is extended with the candidate
strings not already present. -/
def unionKeys (old new : MatchKeySet) : MatchKeySet :=
  { name := fillEmpty old.name new.name
    email := fillEmpty old.email new.email
    cell := fillEmpty old.cell new.cell
    phone := fillEmpty old.phone new.phone
    address_variants :=
      old.address_variants ++ new.address_variants.filter
        (fun a => !old.address_variants.contains a) }

/-- Modelled from the spec: update of the first matching identity: keys
are unioned and the new link is appended. -/
def updateIdentity (k : MatchKeySet) (p : Str × Nat) (m : MasterIdentity) : MasterIdentity :=
  { m with keys := unionKeys m.keys k, links := m.links ++ [p] }

/-- Modelled from the spec: walks the master table and updates the first
identity matched by the rules; none when no identity matches. -/
def linkAux (k : MatchKeySet) (p : Str × Nat) : List MasterIdentity → Option (List MasterIdentity)
  | [] => none
  | m :: ms =>
    if keyMatches k m then some (updateIdentity k p m :: ms)
    else (linkAux k p ms).map (fun t => m :: t)

/-- Modelled from the spec: a fresh monotonically increasing identity id,
one larger than every id already in the table. -/
def freshId (tbl : List MasterIdentity) : Nat :=
  tbl.foldl (fun a m => max a (m.identity_id + 1)) 0

/-- Modelled from the spec: the link operation of section 4.5: the record
either joins the first matching identity or seeds a new identity, and the
link is recorded in both cases. -/
def link (k : MatchKeySet) (src : Str) (row : Nat) (tbl : List MasterIdentity) :
    List MasterIdentity :=
  match linkAux k (src, row) tbl with
  | some t => t
  | none => tbl ++ [{ identity_id := freshId tbl, keys := k, links := [(src, row)] }]

/-- Modelled from the spec: one sequential pass linking a stream of
already normalised records into the master table. -/
def processRecords (recs : List (MatchKeySet × Str × Nat)) (tbl : List MasterIdentity) :
    List MasterIdentity :=
  recs.foldl (fun t r => link r.1 r.2.1 r.2.2 t) tbl

/-- All links recorded anywhere in the master table. -/
def allLinks (tbl : List MasterIdentity) : List (Str × Nat) :=
  (tbl.map (fun m => m.links)).flatten

/-! ### Character-level lemmas -/

theorem toNat_ofNat_of_valid (n : Nat) (h : n < 55296) : (Char.ofNat n).toNat = n := by
  rw [Char.ofNat, dif_pos (Or.inl (by exact_mod_cast h))]
  rfl

theorem charLower_toNat_of_upper (c : Char) (h : 65 ≤ c.toNat ∧ c.toNat ≤ 90) :
    (charLower c).toNat = c.toNat + 32 := by
  rw [charLower, if_pos h, toNat_ofNat_of_valid _ (by omega)]

theorem charLower_charLower (c : Char) : charLower (charLower c) = charLower c := by
  by_cases h : 65 ≤ c.toNat ∧ c.toNat ≤ 90
  · have h2 := charLower_toNat_of_upper c h
    rw [charLower, if_neg (by omega)]
  · conv_lhs => rw [charLower]
    rw [if_neg]
    intro h2
    rw [charLower, if_neg h] at h2
    exact h h2

theorem toNat_inj_of_eq {c d : Char} (h : c = d) : c.toNat = d.toNat := by rw [h]

theorem char_eq_iff_toNat {c d : Char} : c = d ↔ c.toNat = d.toNat := by
  constructor
  · intro h
    rw [h]
  · intro h
    apply Char.ext
    exact UInt32.toNat.inj h

theorem isPySpace_iff_toNat (c : Char) :
    isPySpace c = true ↔
      c.toNat = 32 ∨ c.toNat = 9 ∨ c.toNat = 10 ∨ c.toNat = 13 ∨ c.toNat = 11 ∨ c.toNat = 12 := by
  simp only [isPySpace, Bool.or_eq_true, beq_iff_eq, char_eq_iff_toNat,
    show (' ' : Char).toNat = 32 from rfl, show ('\t' : Char).toNat = 9 from rfl,
    show ('\n' : Char).toNat = 10 from rfl, show ('\r' : Char).toNat = 13 from rfl,
    show ('\x0b' : Char).toNat = 11 from rfl, show ('\x0c' : Char).toNat = 12 from rfl]
  tauto

theorem isPySpace_charLower (c : Char) : isPySpace (charLower c) = isPySpace c := by
  by_cases h : 65 ≤ c.toNat ∧ c.toNat ≤ 90
  · have h2 := charLower_toNat_of_upper c h
    have hl : isPySpace (charLower c) = false := by
      rw [← Bool.not_eq_true]
      rw [isPySpace_iff_toNat]
      omega
    have hr : isPySpace c = false := by
      rw [← Bool.not_eq_true]
      rw [isPySpace_iff_toNat]
      omega
    rw [hl, hr]
  · rw [charLower, if_neg h]

theorem charLower_space : charLower ' ' = ' ' := by decide

theorem isPySpace_space : isPySpace ' ' = true := by decide

theorem ne_space_of_not_isPySpace {c : Char} (h : isPySpace c = false) : c ≠ ' ' := by
  intro hc
  subst hc
  simp [isPySpace_space] at h

theorem wsToSpace_of_not_space {c : Char} (h : isPySpace c = false) : wsToSpace c = c := by
  simp [wsToSpace, h]

theorem isPySpace_wsToSpace (c : Char) : isPySpace (wsToSpace c) = isPySpace c := by
  unfold wsToSpace
  split
  · simp_all [isPySpace_space]
  · rfl

theorem wsToSpace_space_iff {c : Char} : isPySpace c = true → wsToSpace c = ' ' := by
  intro h
  simp [wsToSpace, h]

/-! ### Lemmas about squeeze -/

theorem squeeze_head? (l : Str) : (squeeze l).head? = l.head? := by
  induction l with
  | nil => rfl
  | cons c r ih =>
    cases r with
    | nil => rfl
    | cons d t =>
      rw [squeeze]
      split
      · rename_i h
        rw [ih, List.head?_cons, List.head?_cons, h.1, h.2]
      · rw [List.head?_cons, List.head?_cons]

theorem squeeze_ne_nil {l : Str} (h : l ≠ []) : squeeze l ≠ [] := by
  intro hs
  have h1 := squeeze_head? l
  rw [hs] at h1
  cases l with
  | nil => exact h rfl
  | cons c r => simp at h1

theorem squeeze_getLast? (l : Str) : (squeeze l).getLast? = l.getLast? := by
  induction l with
  | nil => rfl
  | cons c r ih =>
    cases r with
    | nil => rfl
    | cons d t =>
      rw [squeeze]
      split
      · rw [ih, List.getLast?_cons_cons]
      · have hne : squeeze (d :: t) ≠ [] := squeeze_ne_nil (by simp)
        cases hsq : squeeze (d :: t) with
        | nil => exact absurd hsq hne
        | cons e u =>
          rw [List.getLast?_cons_cons, List.getLast?_cons_cons, ← hsq, ih]

theorem mem_of_mem_squeeze {c : Char} {l : Str} (h : c ∈ squeeze l) : c ∈ l := by
  induction l with
  | nil => exact absurd h (by simp [squeeze])
  | cons a r ih =>
    cases r with
    | nil => exact h
    | cons d t =>
      rw [squeeze] at h
      split at h
      · exact List.mem_cons_of_mem a (ih h)
      · rcases List.mem_cons.mp h with h1 | h1
        · exact h1 ▸ List.mem_cons_self a _
        · exact List.mem_cons_of_mem a (ih h1)

theorem squeeze_chain (l : Str) :
    List.Chain' (fun a b => ¬(a = ' ' ∧ b = ' ')) (squeeze l) := by
  induction l with
  | nil => simp [squeeze]
  | cons c r ih =>
    cases r with
    | nil => simp [squeeze]
    | cons d t =>
      rw [squeeze]
      split
      · exact ih
      · rename_i h
        apply List.chain'_cons'.mpr
        refine ⟨?_, ih⟩
        intro b hb
        rw [squeeze_head?, List.head?_cons] at hb
        simp only [Option.mem_def, Option.some_inj] at hb
        subst hb
        exact h

theorem squeeze_eq_self_of_chain {l : Str}
    (h : List.Chain' (fun a b => ¬(a = ' ' ∧ b = ' ')) l) : squeeze l = l := by
  induction l with
  | nil => rfl
  | cons c r ih =>
    cases r with
    | nil => rfl
    | cons d t =>
      rw [squeeze, if_neg (List.chain'_cons.mp h).1, ih (List.chain'_cons.mp h).2]

theorem squeeze_allspace_cons {s q : Str} (hs : ∀ x ∈ s, x = ' ') (hsne : s ≠ [])
    (hq : ∀ x, q.head? = some x → x ≠ ' ') (hqne : q ≠ []) :
    squeeze (s ++ q) = ' ' :: squeeze q := by
  induction s with
  | nil => exact absurd rfl hsne
  | cons a s1 ih =>
    have ha : a = ' ' := hs a (List.mem_cons_self a s1)
    subst ha
    cases s1 with
    | nil =>
      cases q with
      | nil => exact absurd rfl hqne
      | cons e u =>
        simp only [List.singleton_append]
        rw [squeeze, if_neg]
        intro hcon
        exact hq e rfl hcon.2
    | cons b s2 =>
      have hb : b = ' ' := hs b (by simp)
      subst hb
      have ihh := ih (fun x hx => hs x (List.mem_cons_of_mem _ hx)) (by simp)
      simp only [List.cons_append] at ihh ⊢
      rw [squeeze, if_pos ⟨rfl, rfl⟩, ihh]

theorem squeeze_append_sep {p s q : Str} (hpne : p ≠ [])
    (hp : ∀ x, p.getLast? = some x → x ≠ ' ')
    (hs : ∀ x ∈ s, x = ' ') (hsne : s ≠ [])
    (hq : ∀ x, q.head? = some x → x ≠ ' ') (hqne : q ≠ []) :
    squeeze (p ++ s ++ q) = squeeze p ++ ' ' :: squeeze q := by
  induction p with
  | nil => exact absurd rfl hpne
  | cons c p1 ih =>
    cases p1 with
    | nil =>
      have hc : c ≠ ' ' := hp c rfl
      cases s with
      | nil => exact absurd rfl hsne
      | cons a s2 =>
        have hsp := squeeze_allspace_cons hs hsne hq hqne
        have ha : a = ' ' := hs a (List.mem_cons_self a s2)
        subst ha
        simp only [List.singleton_append, List.cons_append, List.append_assoc, List.nil_append]
          at hsp ⊢
        rw [show squeeze (c :: ' ' :: (s2 ++ q)) =
              c :: squeeze (' ' :: (s2 ++ q)) from by
            rw [squeeze, if_neg (fun hcon => hc hcon.1)], hsp]
        rfl
    | cons d p2 =>
      have hlast : (d :: p2).getLast? = (c :: d :: p2).getLast? := by
        rw [List.getLast?_cons_cons]
      have ihh := ih (by simp) (fun x hx => hp x (hlast ▸ hx))
      simp only [List.cons_append, List.append_assoc] at ihh ⊢
      by_cases hcd : c = ' ' ∧ d = ' '
      · rw [squeeze, if_pos hcd, ihh, squeeze, if_pos hcd]
      · rw [squeeze, if_neg hcd, ihh, squeeze, if_neg hcd]
        rfl

/-! ### Lemmas about dropTrail -/

theorem dropTrail_cons_eq (c : Char) (r : Str) :
    dropTrail (c :: r) = match dropTrail r with
      | [] => if isPySpace c then [] else [c]
      | d :: t => c :: d :: t := rfl

theorem dropTrail_cons_of_nil {c : Char} {r : Str} (h : dropTrail r = []) :
    dropTrail (c :: r) = if isPySpace c then [] else [c] := by
  rw [dropTrail_cons_eq, h]

theorem dropTrail_cons_of_cons {c : Char} {r : Str} {d : Char} {t : Str}
    (h : dropTrail r = d :: t) : dropTrail (c :: r) = c :: d :: t := by
  rw [dropTrail_cons_eq, h]

theorem dropTrail_eq_nil_iff {z : Str} : dropTrail z = [] ↔ ∀ c ∈ z, isPySpace c = true := by
  induction z with
  | nil => simp [dropTrail]
  | cons c r ih =>
    cases hr : dropTrail r with
    | nil =>
      rw [dropTrail_cons_of_nil hr]
      constructor
      · intro h
        intro x hx
        rcases List.mem_cons.mp hx with h1 | h1
        · subst h1
          by_contra hcon
          rw [if_neg (by simpa using hcon)] at h
          exact List.cons_ne_nil _ _ h
        · exact (ih.mp hr) x h1
      · intro h
        rw [if_pos (h c (List.mem_cons_self c r))]
    | cons d t =>
      rw [dropTrail_cons_of_cons hr]
      constructor
      · intro h
        exact absurd h (List.cons_ne_nil _ _)
      · intro h
        have h2 := ih.mpr (fun x hx => h x (List.mem_cons_of_mem c hx))
        rw [hr] at h2
        exact absurd h2 (List.cons_ne_nil _ _)

theorem dropTrail_append_of_nil {y z : Str} (h : dropTrail z = []) :
    dropTrail (y ++ z) = dropTrail y := by
  induction y with
  | nil => rw [List.nil_append, h, dropTrail]
  | cons c r ih =>
    rw [List.cons_append]
    cases hr : dropTrail r with
    | nil => rw [dropTrail_cons_of_nil (ih.trans hr), dropTrail_cons_of_nil hr]
    | cons d t => rw [dropTrail_cons_of_cons (ih.trans hr), dropTrail_cons_of_cons hr]

theorem dropTrail_append_of_cons {y z : Str} {d : Char} {t : Str} (h : dropTrail z = d :: t) :
    dropTrail (y ++ z) = y ++ d :: t := by
  induction y with
  | nil => rw [List.nil_append, h, List.nil_append]
  | cons c r ih =>
    rw [List.cons_append]
    cases hrw : r ++ d :: t with
    | nil => simp at hrw
    | cons e u =>
      rw [dropTrail_cons_of_cons (ih.trans hrw), List.cons_append, hrw]

theorem exists_dropTrail_decomp (y : Str) :
    ∃ w, y = dropTrail y ++ w ∧ ∀ c ∈ w, isPySpace c = true := by
  induction y with
  | nil => exact ⟨[], rfl, by simp⟩
  | cons c r ih =>
    obtain ⟨w, hw, hws⟩ := ih
    cases hr : dropTrail r with
    | nil =>
      by_cases hc : isPySpace c = true
      · refine ⟨c :: r, ?_, ?_⟩
        · rw [dropTrail_cons_of_nil hr, if_pos hc, List.nil_append]
        · intro x hx
          rcases List.mem_cons.mp hx with h1 | h1
          · subst h1
            exact hc
          · exact dropTrail_eq_nil_iff.mp hr x h1
      · refine ⟨w, ?_, hws⟩
        rw [dropTrail_cons_of_nil hr, if_neg (by simpa using hc)]
        rw [hr, List.nil_append] at hw
        rw [List.singleton_append, ← hw]
    | cons d t =>
      refine ⟨w, ?_, hws⟩
      rw [hr] at hw
      rw [dropTrail_cons_of_cons hr, List.cons_append, ← hw]

theorem getLast?_dropTrail_not {y : Str} {x : Char} (h : (dropTrail y).getLast? = some x) :
    isPySpace x = false := by
  induction y with
  | nil => simp [dropTrail] at h
  | cons c r ih =>
    cases hr : dropTrail r with
    | nil =>
      rw [dropTrail_cons_of_nil hr] at h
      by_cases hc : isPySpace c = true
      · rw [if_pos hc] at h
        simp at h
      · rw [if_neg (by simpa using hc)] at h
        have hxc : c = x := by simpa using h
        subst hxc
        simpa using hc
    | cons d t =>
      rw [dropTrail_cons_of_cons hr, List.getLast?_cons_cons, ← hr] at h
      exact ih h

theorem head?_dropTrail {y : Str} (h : dropTrail y ≠ []) :
    (dropTrail y).head? = y.head? := by
  cases y with
  | nil => rfl
  | cons c r =>
    cases hr : dropTrail r with
    | nil =>
      rw [dropTrail_cons_of_nil hr] at h ⊢
      by_cases hc : isPySpace c = true
      · rw [if_pos hc] at h
        exact absurd rfl h
      · rw [if_neg (by simpa using hc)]
        rfl
    | cons d t =>
      rw [dropTrail_cons_of_cons hr]
      rfl

theorem mem_of_mem_dropTrail {c : Char} {y : Str} (h : c ∈ dropTrail y) : c ∈ y := by
  obtain ⟨w, hw, _⟩ := exists_dropTrail_decomp y
  rw [hw]
  exact List.mem_append_left w h

theorem dropTrail_eq_self {y : Str} (h : ∀ x, y.getLast? = some x → isPySpace x = false) :
    dropTrail y = y := by
  induction y with
  | nil => rfl
  | cons c r ih =>
    cases r with
    | nil =>
      rw [dropTrail_cons_of_nil (show dropTrail ([] : Str) = [] from rfl),
        if_neg (by simpa using h c rfl)]
    | cons d t =>
      have hrr : dropTrail (d :: t) = d :: t := by
        apply ih
        intro x hx
        apply h
        rw [List.getLast?_cons_cons]
        exact hx
      rw [dropTrail_cons_of_cons hrr]

/-! ### Lemmas about the whitespace normalisation pipeline -/

theorem getLast?_map (f : Char → Char) (l : Str) : (l.map f).getLast? = l.getLast?.map f := by
  rw [List.getLast?_eq_head?_reverse, List.getLast?_eq_head?_reverse, ← List.map_reverse,
    List.head?_map]

theorem dropWhile_append_of_ne_nil {p : Char → Bool} {l z : Str} (h : l.dropWhile p ≠ []) :
    (l ++ z).dropWhile p = l.dropWhile p ++ z := by
  rw [List.dropWhile_append]
  simp only [List.isEmpty_iff]
  rw [if_neg h]

theorem head?_dropWhile_isPySpace {x : Str} {c : Char}
    (h : (x.dropWhile isPySpace).head? = some c) : isPySpace c = false := by
  have h2 := List.head?_dropWhile_not isPySpace x
  rw [h] at h2
  exact h2

theorem mem_of_mem_dropWhile_isPySpace {c : Char} {x : Str}
    (h : c ∈ x.dropWhile isPySpace) : c ∈ x := by
  have hx := List.takeWhile_append_dropWhile isPySpace x
  rw [← hx]
  exact List.mem_append_right _ h

theorem pyStrip_eq_nil_iff {a : Str} : pyStrip a = [] ↔ ∀ c ∈ a, isPySpace c = true := by
  rw [pyStrip, dropTrail_eq_nil_iff]
  constructor
  · intro h c hc
    by_cases htake : c ∈ a.takeWhile isPySpace
    · exact List.mem_takeWhile_imp htake
    · apply h
      have hta := List.takeWhile_append_dropWhile isPySpace a
      rw [← hta] at hc
      rcases List.mem_append.mp hc with h1 | h1
      · exact absurd h1 htake
      · exact h1
  · intro h c hc
    exact h c (mem_of_mem_dropWhile_isPySpace hc)

theorem normWS_eq_nil_iff {a : Str} : normWS a = [] ↔ ∀ c ∈ a, isPySpace c = true := by
  rw [normWS, pySub]
  constructor
  · intro h
    have h2 : (pyStrip a).map wsToSpace = [] := by
      by_contra hcon
      exact squeeze_ne_nil hcon h
    rw [List.map_eq_nil_iff] at h2
    exact pyStrip_eq_nil_iff.mp h2
  · intro h
    rw [pyStrip_eq_nil_iff.mpr h]
    rfl

theorem normWS_head?_not {x : Str} {c : Char} (h : (normWS x).head? = some c) :
    isPySpace c = false := by
  rw [normWS, pySub, squeeze_head?, List.head?_map] at h
  cases hh : (pyStrip x).head? with
  | none =>
    rw [hh, Option.map_none'] at h
    exact absurd h (by simp)
  | some e =>
    rw [hh] at h
    simp only [Option.map_some', Option.some_inj] at h
    subst h
    have hne : pyStrip x ≠ [] := by
      intro hcon
      rw [hcon] at hh
      simp at hh
    rw [pyStrip, head?_dropTrail (by rw [← pyStrip]; exact hne)] at hh
    rw [isPySpace_wsToSpace]
    exact head?_dropWhile_isPySpace hh

theorem normWS_getLast?_not {x : Str} {c : Char} (h : (normWS x).getLast? = some c) :
    isPySpace c = false := by
  rw [normWS, pySub, squeeze_getLast?, getLast?_map] at h
  cases hh : (pyStrip x).getLast? with
  | none =>
    rw [hh, Option.map_none'] at h
    exact absurd h (by simp)
  | some e =>
    rw [hh] at h
    simp only [Option.map_some', Option.some_inj] at h
    subst h
    rw [isPySpace_wsToSpace]
    exact getLast?_dropTrail_not hh

theorem mem_normWS {c : Char} {x : Str} (h : c ∈ normWS x) : c = ' ' ∨ c ∈ x := by
  rw [normWS, pySub] at h
  have h2 := mem_of_mem_squeeze h
  obtain ⟨e, he, hec⟩ := List.mem_map.mp h2
  by_cases hs : isPySpace e = true
  · left
    rw [← hec, wsToSpace, if_pos hs]
  · right
    rw [← hec, wsToSpace_of_not_space (by simpa using hs)]
    exact mem_of_mem_dropWhile_isPySpace (mem_of_mem_dropTrail he)

theorem mem_normWS_space {c : Char} {x : Str} (h : c ∈ normWS x) (hs : isPySpace c = true) :
    c = ' ' := by
  rw [normWS, pySub] at h
  obtain ⟨e, he, hec⟩ := List.mem_map.mp (mem_of_mem_squeeze h)
  by_cases hse : isPySpace e = true
  · rw [← hec, wsToSpace, if_pos hse]
  · rw [← hec, wsToSpace_of_not_space (by simpa using hse)] at hs ⊢
    exact absurd hs (by simpa using hse)

theorem normWS_idem (x : Str) : normWS (normWS x) = normWS x := by
  have h1 : (normWS x).dropWhile isPySpace = normWS x := by
    cases hn : normWS x with
    | nil => rfl
    | cons c t =>
      apply List.dropWhile_cons_of_neg
      have hc : isPySpace c = false := normWS_head?_not (by rw [hn]; rfl)
      simp [hc]
  have h2 : dropTrail (normWS x) = normWS x :=
    dropTrail_eq_self (fun e he => normWS_getLast?_not he)
  have h3 : (normWS x).map wsToSpace = normWS x := by
    have hmc : (normWS x).map wsToSpace = (normWS x).map id := by
      apply List.map_congr_left
      intro a ha
      by_cases hsa : isPySpace a = true
      · have haa := mem_normWS_space ha hsa
        subst haa
        simp [wsToSpace, isPySpace_space]
      · simp [wsToSpace_of_not_space (by simpa using hsa)]
    rw [hmc, List.map_id]
  have h4 : squeeze (normWS x) = normWS x :=
    squeeze_eq_self_of_chain (by rw [normWS, pySub]; exact squeeze_chain _)
  calc normWS (normWS x) = squeeze (((normWS x).dropWhile isPySpace |> dropTrail).map wsToSpace) := rfl
    _ = normWS x := by rw [h1, h2, h3, h4]

/-! ### Splitting normWS over an append -/

theorem normWS_append_left_allspace {a z : Str} (h : ∀ c ∈ a, isPySpace c = true) :
    normWS (a ++ z) = normWS z := by
  rw [normWS, normWS, pyStrip, pyStrip, List.dropWhile_append_of_pos h]

theorem normWS_append_right_allspace {y z : Str} (h : ∀ c ∈ z, isPySpace c = true) :
    normWS (y ++ z) = normWS y := by
  by_cases hy : ∀ c ∈ y, isPySpace c = true
  · rw [normWS_append_left_allspace hy, normWS_eq_nil_iff.mpr h,
      (normWS_eq_nil_iff.mpr hy : normWS y = [])]
  · have hyne : y.dropWhile isPySpace ≠ [] := by
      intro hcon
      exact hy (List.dropWhile_eq_nil_iff.mp hcon)
    rw [normWS, normWS, pyStrip, pyStrip, dropWhile_append_of_ne_nil hyne,
      dropTrail_append_of_nil (dropTrail_eq_nil_iff.mpr h)]

theorem normWS_append_sep {a b : Str} (ha : ¬ ∀ c ∈ a, isPySpace c = true)
    (hb : ¬ ∀ c ∈ b, isPySpace c = true) :
    normWS (a ++ ' ' :: b) = normWS a ++ ' ' :: normWS b := by
  have hws : wsToSpace ' ' = ' ' := wsToSpace_space_iff isPySpace_space
  have hane : a.dropWhile isPySpace ≠ [] := by
    intro hcon
    exact ha (List.dropWhile_eq_nil_iff.mp hcon)
  have hpsa : pyStrip a ≠ [] := by
    intro hcon
    exact ha (pyStrip_eq_nil_iff.mp hcon)
  have hpsb : pyStrip b ≠ [] := by
    intro hcon
    exact hb (pyStrip_eq_nil_iff.mp hcon)
  obtain ⟨e, u, heu⟩ : ∃ e u, pyStrip b = e :: u := by
    cases hx : pyStrip b with
    | nil => exact absurd hx hpsb
    | cons e u => exact ⟨e, u, rfl⟩
  have hsb : dropTrail (' ' :: b) = ' ' :: dropTrail b := by
    conv_lhs => rw [show (' ' :: b : Str) = [' '] ++ b from rfl]
    cases hdb : dropTrail b with
    | nil =>
      exact absurd (pyStrip_eq_nil_iff.mpr (dropTrail_eq_nil_iff.mp hdb)) hpsb
    | cons d t =>
      rw [dropTrail_append_of_cons hdb]
      rfl
  have hstrip : pyStrip (a ++ ' ' :: b) = a.dropWhile isPySpace ++ ' ' :: dropTrail b := by
    rw [pyStrip, dropWhile_append_of_ne_nil hane, dropTrail_append_of_cons hsb]
  obtain ⟨wa, hwa, hwas⟩ := exists_dropTrail_decomp (a.dropWhile isPySpace)
  have hwb := List.takeWhile_append_dropWhile isPySpace b
  have hdtb : dropTrail b = b.takeWhile isPySpace ++ pyStrip b := by
    conv_lhs => rw [← hwb]
    rw [dropTrail_append_of_cons (show dropTrail (b.dropWhile isPySpace) = e :: u from heu),
      heu]
  rw [normWS, pySub, hstrip, hwa, hdtb]
  have hmap : ((dropTrail (a.dropWhile isPySpace) ++ wa) ++
        ' ' :: (b.takeWhile isPySpace ++ pyStrip b)).map wsToSpace =
      ((dropTrail (a.dropWhile isPySpace)).map wsToSpace ++
        (wa.map wsToSpace ++ ' ' :: (b.takeWhile isPySpace).map wsToSpace)) ++
        (pyStrip b).map wsToSpace := by
    simp [List.map_append, List.map_cons, List.append_assoc, List.cons_append, hws]
  rw [hmap]
  have hpne : (dropTrail (a.dropWhile isPySpace)).map wsToSpace ≠ [] := by
    intro hcon
    exact hpsa (List.map_eq_nil_iff.mp hcon)
  have hp : ∀ x, ((dropTrail (a.dropWhile isPySpace)).map wsToSpace).getLast? = some x → x ≠ ' ' := by
    intro x hx
    rw [getLast?_map] at hx
    cases hgl : (dropTrail (a.dropWhile isPySpace)).getLast? with
    | none =>
      rw [hgl, Option.map_none'] at hx
      exact absurd hx (by simp)
    | some e2 =>
      rw [hgl] at hx
      simp only [Option.map_some', Option.some_inj] at hx
      have hsp := getLast?_dropTrail_not hgl
      rw [← hx, wsToSpace_of_not_space hsp]
      exact ne_space_of_not_isPySpace hsp
  have hs : ∀ x ∈ wa.map wsToSpace ++ ' ' :: (b.takeWhile isPySpace).map wsToSpace, x = ' ' := by
    intro x hx
    rcases List.mem_append.mp hx with h1 | h1
    · obtain ⟨w, hwmem, hwx⟩ := List.mem_map.mp h1
      rw [← hwx]
      exact wsToSpace_space_iff (hwas w hwmem)
    · rcases List.mem_cons.mp h1 with h2 | h2
      · exact h2
      · obtain ⟨w, hwmem, hwx⟩ := List.mem_map.mp h2
        rw [← hwx]
        exact wsToSpace_space_iff (List.mem_takeWhile_imp hwmem)
  have hsne : wa.map wsToSpace ++ ' ' :: (b.takeWhile isPySpace).map wsToSpace ≠ [] := by
    simp
  have hq : ∀ x, ((pyStrip b).map wsToSpace).head? = some x → x ≠ ' ' := by
    intro x hx
    rw [List.head?_map] at hx
    have hpsbhead : (pyStrip b).head? = (b.dropWhile isPySpace).head? := by
      rw [pyStrip]
      exact head?_dropTrail (by rw [← pyStrip]; exact hpsb)
    rw [hpsbhead] at hx
    cases hgl : (b.dropWhile isPySpace).head? with
    | none =>
      rw [hgl, Option.map_none'] at hx
      exact absurd hx (by simp)
    | some e2 =>
      rw [hgl] at hx
      simp only [Option.map_some', Option.some_inj] at hx
      have hsp := head?_dropWhile_isPySpace hgl
      rw [← hx, wsToSpace_of_not_space hsp]
      exact ne_space_of_not_isPySpace hsp
  have hqne : (pyStrip b).map wsToSpace ≠ [] := by
    intro hcon
    exact hpsb (List.map_eq_nil_iff.mp hcon)
  rw [squeeze_append_sep hpne hp hs hsne hq hqne]
  rfl

/-! ### Lifting to clean_entries -/

theorem normWS_normWS_append_sep (a b : Str) :
    normWS (normWS a ++ ' ' :: b) = normWS (a ++ ' ' :: b) := by
  by_cases ha : ∀ c ∈ a, isPySpace c = true
  · rw [normWS_eq_nil_iff.mpr ha, List.nil_append, List.append_cons a ' ' b,
      show (' ' :: b : Str) = [' '] ++ b from rfl]
    rw [normWS_append_left_allspace (by simp [isPySpace_space]),
      normWS_append_left_allspace]
    intro c hc
    rcases List.mem_append.mp hc with h1 | h1
    · exact ha c h1
    · rw [List.mem_singleton.mp h1]
      exact isPySpace_space
  · by_cases hb : ∀ c ∈ b, isPySpace c = true
    · have hsp : ∀ c ∈ (' ' :: b : Str), isPySpace c = true := by
        intro c hc
        rcases List.mem_cons.mp hc with h1 | h1
        · rw [h1]
          exact isPySpace_space
        · exact hb c h1
      rw [normWS_append_right_allspace hsp, normWS_append_right_allspace hsp, normWS_idem]
    · have hna : ¬ ∀ c ∈ normWS a, isPySpace c = true := by
        intro hcon
        cases hn : normWS a with
        | nil => exact ha (normWS_eq_nil_iff.mp hn)
        | cons c t =>
          have hc : isPySpace c = false :=
            normWS_head?_not (show (normWS a).head? = some c from by rw [hn]; rfl)
          rw [hn] at hcon
          rw [hcon c (List.mem_cons_self c t)] at hc
          simp at hc
      rw [normWS_append_sep hna hb, normWS_append_sep ha hb, normWS_idem]

theorem pyLower_clean_entries (e : Option Str) :
    pyLower (clean_entries e) = clean_entries e := by
  rw [pyLower]
  have hmc : (clean_entries e).map charLower = (clean_entries e).map id := by
    apply List.map_congr_left
    intro c hc
    rw [clean_entries] at hc
    rcases mem_normWS hc with h1 | h1
    · rw [h1, charLower_space]
      rfl
    · obtain ⟨a, _, hac⟩ := List.mem_map.mp h1
      rw [← hac, charLower_charLower]
      rfl
  rw [hmc, List.map_id]

theorem clean_entries_some_idem (e : Option Str) :
    clean_entries (some (clean_entries e)) = clean_entries e := by
  rw [clean_entries, Option.getD_some, pyLower_clean_entries, clean_entries, normWS_idem]

theorem clean_append_sep (u v : Str) :
    clean_entries (some (clean_entries (some u) ++ ' ' :: v)) =
      clean_entries (some (u ++ ' ' :: v)) := by
  show normWS (pyLower (clean_entries (some u) ++ ' ' :: v)) =
    normWS (pyLower (u ++ ' ' :: v))
  have h1 : pyLower (clean_entries (some u) ++ ' ' :: v) =
      clean_entries (some u) ++ ' ' :: pyLower v := by
    rw [pyLower, List.map_append, List.map_cons, charLower_space,
      show (clean_entries (some u)).map charLower = pyLower (clean_entries (some u)) from rfl,
      pyLower_clean_entries]
    rfl
  have h2 : pyLower (u ++ ' ' :: v) = pyLower u ++ ' ' :: pyLower v := by
    rw [pyLower, List.map_append, List.map_cons, charLower_space]
    rfl
  rw [h1, h2, show clean_entries (some u) = normWS (pyLower u) from rfl,
    normWS_normWS_append_sep]

/-! ### Kept characters and the address key -/

theorem kept_chars_lower_fixed : ∀ c ∈ default_kept_chars, charLower c = c := by decide

theorem space_mem_kept : ' ' ∈ default_kept_chars := by decide

theorem mem_kept_of_mem_clean {A : Str} (hA : ∀ c ∈ A, c ∈ default_kept_chars) :
    ∀ c ∈ clean_entries (some A), c ∈ default_kept_chars := by
  intro c hc
  rw [clean_entries, Option.getD_some] at hc
  rcases mem_normWS hc with h1 | h1
  · rw [h1]
    exact space_mem_kept
  · obtain ⟨a, ha, hac⟩ := List.mem_map.mp h1
    rw [← hac, kept_chars_lower_fixed a (hA a ha)]
    exact hA a ha

theorem strip_symbols_clean_of_kept {A : Str} (hA : ∀ c ∈ A, c ∈ default_kept_chars) :
    strip_symbols (clean_entries (some A)) default_kept_chars = clean_entries (some A) := by
  rw [strip_symbols]
  apply List.filter_eq_self.mpr
  intro a ha
  exact decide_eq_true (mem_kept_of_mem_clean hA a ha)

theorem mem_kept_of_mem_addr_key {v : Option Str} :
    ∀ c ∈ addr_component_key v, c ∈ default_kept_chars := by
  intro c hc
  rw [addr_component_key, strip_symbols] at hc
  exact of_decide_eq_true (List.mem_filter.mp hc).2

/-! ### The reduce of combine_address_columns -/

theorem foldl_combine_eq (cs : List (Option Str)) :
    ∀ A : Str, (∀ c ∈ A, c ∈ default_kept_chars) →
    clean_entries (cs.foldl
      (fun col_1 col_2 => some (addr_component_key col_1 ++ ' ' :: addr_component_key col_2))
      (some A)) =
    clean_entries (some (A ++ (cs.map (fun b => ' ' :: addr_component_key b)).flatten)) := by
  induction cs with
  | nil =>
    intro A hA
    rw [List.foldl_nil, List.map_nil, List.flatten_nil, List.append_nil]
  | cons b cs1 ih =>
    intro A hA
    simp only [List.foldl_cons]
    have hsub : ∀ c ∈ addr_component_key (some A) ++ ' ' :: addr_component_key b,
        c ∈ default_kept_chars := by
      intro c hc
      rcases List.mem_append.mp hc with h1 | h1
      · exact mem_kept_of_mem_addr_key c h1
      · rcases List.mem_cons.mp h1 with h2 | h2
        · rw [h2]
          exact space_mem_kept
        · exact mem_kept_of_mem_addr_key c h2
    rw [ih _ hsub]
    have hkey : addr_component_key (some A) = clean_entries (some A) := by
      rw [show addr_component_key (some A) =
          strip_symbols (clean_entries (some A)) default_kept_chars from rfl,
        strip_symbols_clean_of_kept hA]
    rw [hkey, List.map_cons, List.flatten_cons]
    rw [show (clean_entries (some A) ++ ' ' :: addr_component_key b) ++
          (cs1.map (fun x => ' ' :: addr_component_key x)).flatten =
        clean_entries (some A) ++ ' ' ::
          (addr_component_key b ++ (cs1.map (fun x => ' ' :: addr_component_key x)).flatten)
      from by simp [List.append_assoc]]
    rw [clean_append_sep]
    rw [show (' ' :: addr_component_key b) ++
          (cs1.map (fun x => ' ' :: addr_component_key x)).flatten =
        ' ' :: (addr_component_key b ++ (cs1.map (fun x => ' ' :: addr_component_key x)).flatten)
      from by simp]

theorem joinSpaces_map_cons (c : Option Str) (cs : List (Option Str)) :
    joinSpaces ((c :: cs).map addr_component_key) =
      addr_component_key c ++ (cs.map (fun b => ' ' :: addr_component_key b)).flatten := by
  induction cs generalizing c with
  | nil => simp [joinSpaces]
  | cons d cs1 ih =>
    rw [List.map_cons, List.map_cons, joinSpaces, ← List.map_cons, ih d]
    simp [List.append_assoc]

/-! ### Claim C1 -/

/-- C1: for every ordered sequence of two or more raw address component
values, the reduce-based combine_address_columns produces exactly the
string obtained by the reference definition canonicalize_components_spec,
which normalises and symbol-filters each component independently with the
default charset, joins the results with single spaces, and re-normalises
the joined result, collapsing doubled spaces that arise from empty
components and leaving no leading or trailing space. -/
theorem combine_address_columns_refines_spec (cols : List (Option Str))
    (h : 2 ≤ cols.length) :
    combine_address_columns cols = some (canonicalize_components_spec cols) := by
  rcases cols with _ | ⟨c, cols2⟩
  · simp at h
  rcases cols2 with _ | ⟨d, cs⟩
  · simp at h
  rw [combine_address_columns]
  simp only [List.foldl_cons]
  have hsub : ∀ x ∈ addr_component_key c ++ ' ' :: addr_component_key d,
      x ∈ default_kept_chars := by
    intro x hx
    rcases List.mem_append.mp hx with h1 | h1
    · exact mem_kept_of_mem_addr_key x h1
    · rcases List.mem_cons.mp h1 with h2 | h2
      · rw [h2]
        exact space_mem_kept
      · exact mem_kept_of_mem_addr_key x h2
  rw [foldl_combine_eq cs _ hsub]
  rw [canonicalize_components_spec, joinSpaces_map_cons]
  congr 2
  simp [List.append_assoc]

/-- Witness for C1 at a concrete component list with an empty and a missing
component: both sides evaluate to the same canonical string. -/
theorem combine_address_columns_refines_spec_witness :
    2 ≤ ([some ['1', '2', ' ', ' ', 'M', 'a', 'i', 'n'], none,
        some ['S', 't', '.']] : List (Option Str)).length ∧
    combine_address_columns
        [some ['1', '2', ' ', ' ', 'M', 'a', 'i', 'n'], none, some ['S', 't', '.']] =
      some (canonicalize_components_spec
        [some ['1', '2', ' ', ' ', 'M', 'a', 'i', 'n'], none, some ['S', 't', '.']]) :=
  ⟨by decide,
    combine_address_columns_refines_spec
      [some ['1', '2', ' ', ' ', 'M', 'a', 'i', 'n'], none, some ['S', 't', '.']]
      (by decide)⟩

theorem chain_space_strengthen {l : Str}
    (h : List.Chain' (fun a b => ¬(a = ' ' ∧ b = ' ')) l)
    (hm : ∀ c ∈ l, isPySpace c = true → c = ' ') :
    List.Chain' (fun a b => ¬(isPySpace a = true ∧ isPySpace b = true)) l := by
  induction l with
  | nil => simp
  | cons a r ih =>
    rw [List.chain'_cons'] at h ⊢
    refine ⟨?_, ih h.2 (fun c hc => hm c (List.mem_cons_of_mem a hc))⟩
    intro b hb hsab
    have hbr : b ∈ r := List.mem_of_mem_head? hb
    have ha2 : a = ' ' := hm a (List.mem_cons_self a r) hsab.1
    have hb2 : b = ' ' := hm b (List.mem_cons_of_mem a hbr) hsab.2
    exact h.1 b hb ⟨ha2, hb2⟩

/-! ### Claim C2 -/

/-- C2: the field normaliser clean_entries is idempotent: applying it to
its own output, for any input cell, returns that output unchanged. -/
theorem clean_entries_idempotent :
    ∀ e : Option Str, clean_entries (some (clean_entries e)) = clean_entries e :=
  clean_entries_some_idem

/-! ### Claim C3 -/

/-- C3: strip_symbols returns a string whose characters all belong to the
allowed charset, the kept characters form a subsequence of the input so
their relative order is preserved, exactly the charset members of the
input are kept with their multiplicities, and the call maps the empty
string to the empty string rather than failing. -/
theorem strip_symbols_charset_closure (x C : Str) :
    (∀ c ∈ strip_symbols x C, c ∈ C) ∧
    (strip_symbols x C).Sublist x ∧
    (∀ c, (strip_symbols x C).count c = if c ∈ C then x.count c else 0) ∧
    strip_symbols [] C = [] := by
  refine ⟨?_, ?_, ?_, rfl⟩
  · intro c hc
    exact of_decide_eq_true (List.mem_filter.mp hc).2
  · exact List.filter_sublist x
  · intro c
    by_cases hc : c ∈ C
    · rw [if_pos hc, strip_symbols, List.count_filter (by simpa using hc)]
    · rw [if_neg hc, List.count_eq_zero]
      intro hmem
      exact hc (of_decide_eq_true (List.mem_filter.mp hmem).2)

/-- Witness for C3: the closure conjunct applied at a concrete string,
charset and kept character. -/
theorem strip_symbols_charset_closure_witness :
    'a' ∈ (['a', 'b'] : Str) :=
  (strip_symbols_charset_closure ['a', '@', 'b'] ['a', 'b']).1 'a' (by decide)

/-! ### Claim C5 -/

/-- C5: clean_entries maps a missing cell to the empty string and maps a
present string to a string value (never a null) that has no leading or
trailing whitespace, no two adjacent whitespace characters, represents
whitespace only by the plain space character, is fixed under lowercasing,
and consists only of spaces and lowercased characters of the input. -/
theorem clean_entries_contract :
    clean_entries none = [] ∧
    ∀ s : Str,
      (∀ c, (clean_entries (some s)).head? = some c → isPySpace c = false) ∧
      (∀ c, (clean_entries (some s)).getLast? = some c → isPySpace c = false) ∧
      List.Chain' (fun a b => ¬(isPySpace a = true ∧ isPySpace b = true))
        (clean_entries (some s)) ∧
      (∀ c ∈ clean_entries (some s), isPySpace c = true → c = ' ') ∧
      pyLower (clean_entries (some s)) = clean_entries (some s) ∧
      (∀ c ∈ clean_entries (some s), c = ' ' ∨ c ∈ pyLower s) := by
  refine ⟨rfl, ?_⟩
  intro s
  refine ⟨?_, ?_, ?_, ?_, pyLower_clean_entries (some s), ?_⟩
  · intro c hc
    exact normWS_head?_not hc
  · intro c hc
    exact normWS_getLast?_not hc
  · apply chain_space_strengthen
    · exact squeeze_chain ((pyStrip (pyLower s)).map wsToSpace)
    · intro c hc hs
      exact mem_normWS_space hc hs
  · intro c hc hs
    exact mem_normWS_space hc hs
  · intro c hc
    exact mem_normWS hc

/-- Witness for C5: the head conjunct applied at a concrete input whose
raw form carries leading whitespace and uppercase letters. -/
theorem clean_entries_contract_witness :
    isPySpace 'a' = false :=
  ((clean_entries_contract.2 [' ', 'A', ' ', 'b']).1 'a') (by decide)

/-! ### Claim C9 -/

/-- C9: when combine_address_columns receives exactly one column, the
reduce never invokes the per-component lambda, so the single component is
only normalised by the final clean_entries and strip_symbols is never
applied to it: a character outside the default charset survives into the
canonical string, unlike in the two-or-more-component case. -/
theorem combine_single_column_skips_strip_symbols :
    (∀ c : Option Str, combine_address_columns [c] = some (clean_entries c)) ∧
    combine_address_columns [some ['a', '@', 'b']] = some ['a', '@', 'b'] ∧
    '@' ∉ default_kept_chars ∧
    combine_address_columns [some ['a', '@', 'b'], some []] = some ['a', 'b'] :=
  ⟨fun _ => rfl, by decide, by decide, by decide⟩

/-! ### Claim C10 -/

/-- C10: strip_symbols is idempotent for any fixed charset: a second pass
keeps every character of the first output unchanged. -/
theorem strip_symbols_idempotent (x C : Str) :
    strip_symbols (strip_symbols x C) C = strip_symbols x C := by
  rw [strip_symbols, strip_symbols]
  apply List.filter_eq_self.mpr
  intro a ha
  exact (List.mem_filter.mp ha).2

/-! ### Claim C4 -/

/-- C4: the match-key builder applies clean_entries followed by
strip_symbols to the name, cell and phone columns of every source, but
applies clean_entries alone to the email column: each derived email key
equals clean_entries of the raw email cell, and a character outside the
default charset, which strip_symbols would have removed, survives in the
email key. -/
theorem match_email_normalize_only :
    (∀ r : PetpointRecord, petpoint_match_email r = clean_entries r.out_email) ∧
    (∀ r : VolgisticsRecord, volgistics_match_email r = clean_entries r.email) ∧
    (∀ r : SfContactRecord, sf_match_email r = clean_entries r.email) ∧
    (∀ r : PetpointRecord,
      petpoint_match_name r =
        strip_symbols (clean_entries r.outcome_person_name) default_kept_chars ∧
      petpoint_match_cell r =
        strip_symbols (clean_entries r.out_cell_phone) default_kept_chars ∧
      petpoint_match_phone r =
        strip_symbols (clean_entries r.out_home_phone) default_kept_chars) ∧
    petpoint_match_email ⟨none, some ['A', '@', 'B', '.', 'c'], none, none, none, none, none,
      none, none, none, none, none⟩ = ['a', '@', 'b', '.', 'c'] ∧
    strip_symbols ['a', '@', 'b', '.', 'c'] default_kept_chars = ['a', 'b', 'c'] :=
  ⟨fun _ => rfl, fun _ => rfl, fun _ => rfl, fun _ => ⟨rfl, rfl, rfl⟩, by decide, by decide⟩

/-! ### Claim C7 -/

/-- C7: the zip component contributed to the address component list of
each source is the first five characters of the raw cell, with a missing
cell treated as the empty string; the truncation has length at most five
and is an initial segment of the raw value. -/
theorem zip_truncated_to_five :
    (∀ r : PetpointRecord,
      (petpoint_addr_components r).getLast? = some (some (truncate_zip r.out_postal_code))) ∧
    (∀ r : VolgisticsRecord,
      (volgistics_addr_components r).getLast? = some (some (truncate_zip r.zip))) ∧
    (∀ r : SfContactRecord,
      (sf_addr_components r).getLast? = some (some (truncate_zip r.mailing_zip_postal_code))) ∧
    (∀ z : Option Str, (truncate_zip z).length ≤ 5 ∧
      ∃ w, z.getD [] = truncate_zip z ++ w) ∧
    truncate_zip none = [] := by
  refine ⟨fun r => rfl, fun r => rfl, fun r => rfl, ?_, rfl⟩
  intro z
  refine ⟨?_, ⟨(z.getD []).drop 5, (List.take_append_drop 5 (z.getD [])).symm⟩⟩
  rw [truncate_zip, List.length_take]
  exact min_le_left _ _

/-! ### Claim C6 -/

/-- Counterexample for C6: with a boundary that returns no candidates,
the pipeline stores an empty candidate sequence for a petpoint record
with a non-empty address; it neither aborts differently nor falls back
to the pre-expansion canonical string, so the stored sequence is empty
rather than non-empty. -/
theorem expansion_no_fallback_counterexample :
    petpoint_match_address_list (fun _ => some [])
        ⟨none, none, none, none, some ['1', '2', ' ', 'm', 'a', 'i', 'n'], none, none, none,
          none, none, none, none⟩ = some [] ∧
    combine_address_columns (petpoint_addr_components
        ⟨none, none, none, none, some ['1', '2', ' ', 'm', 'a', 'i', 'n'], none, none, none,
          none, none, none, none⟩) = some ['1', '2', ' ', 'm', 'a', 'i', 'n'] ∧
    ([] : List Str) ≠ [['1', '2', ' ', 'm', 'a', 'i', 'n']] :=
  ⟨by decide, by decide, by decide⟩

/-- C6 amended: the pipeline stores exactly what the expansion boundary
returns for the canonical combined address string: a boundary returning
no candidates yields an empty stored sequence and a boundary error
propagates; no fallback to the pre-expansion canonical string occurs. -/
theorem match_address_list_is_boundary_output
    (expand : Str → Option (List Str)) (r : PetpointRecord) :
    ∃ canonical : Str,
      combine_address_columns (petpoint_addr_components r) = some canonical ∧
      petpoint_match_address_list expand r = expand canonical :=
  ⟨_, rfl, rfl⟩

/-! ### Claim C8: link uniqueness -/

theorem allLinks_cons (m : MasterIdentity) (tbl : List MasterIdentity) :
    allLinks (m :: tbl) = m.links ++ allLinks tbl := by
  rw [allLinks, List.map_cons, List.flatten_cons, allLinks]

theorem allLinks_append (t1 t2 : List MasterIdentity) :
    allLinks (t1 ++ t2) = allLinks t1 ++ allLinks t2 := by
  rw [allLinks, List.map_append, List.flatten_append, allLinks, allLinks]

theorem linkAux_allLinks {k : MatchKeySet} {p : Str × Nat} {tbl t : List MasterIdentity}
    (h : linkAux k p tbl = some t) :
    List.Perm (allLinks t) (p :: allLinks tbl) := by
  induction tbl generalizing t with
  | nil => simp [linkAux] at h
  | cons m ms ih =>
    rw [linkAux] at h
    by_cases hm : keyMatches k m
    · rw [if_pos hm, Option.some_inj] at h
      subst h
      rw [allLinks_cons, allLinks_cons]
      rw [show (updateIdentity k p m).links = m.links ++ [p] from rfl, List.append_assoc,
        List.singleton_append]
      exact List.perm_middle
    · rw [if_neg hm] at h
      cases hrec : linkAux k p ms with
      | none =>
        rw [hrec] at h
        simp at h
      | some t2 =>
        rw [hrec] at h
        simp only [Option.map_some', Option.some_inj] at h
        subst h
        rw [allLinks_cons, allLinks_cons]
        exact ((ih hrec).append_left m.links).trans List.perm_middle

theorem link_allLinks (k : MatchKeySet) (src : Str) (row : Nat) (tbl : List MasterIdentity) :
    List.Perm (allLinks (link k src row tbl)) ((src, row) :: allLinks tbl) := by
  rw [link]
  cases hl : linkAux k (src, row) tbl with
  | some t => exact linkAux_allLinks hl
  | none =>
    rw [allLinks_append]
    rw [show allLinks [{ identity_id := freshId tbl, keys := k, links := [(src, row)] }] =
        [(src, row)] from rfl]
    exact List.perm_append_singleton (src, row) (allLinks tbl)

theorem processRecords_nodup (recs : List (MatchKeySet × Str × Nat)) :
    ∀ tbl : List MasterIdentity,
    (allLinks tbl ++ recs.map (fun r => r.2)).Nodup →
    (allLinks (processRecords recs tbl)).Nodup := by
  induction recs with
  | nil =>
    intro tbl h
    rw [processRecords, List.foldl_nil]
    rw [List.map_nil, List.append_nil] at h
    exact h
  | cons r recs1 ih =>
    intro tbl h
    rw [processRecords, List.foldl_cons]
    rw [List.map_cons] at h
    have hperm1 : List.Perm (allLinks tbl ++ r.2 :: recs1.map (fun x => x.2))
        (r.2 :: (allLinks tbl ++ recs1.map (fun x => x.2))) := List.perm_middle
    have hnd1 := hperm1.nodup h
    have hlink := link_allLinks r.1 r.2.1 r.2.2 tbl
    have hlink2 : List.Perm (allLinks (link r.1 r.2.1 r.2.2 tbl)) (r.2 :: allLinks tbl) := by
      rw [show ((r.2.1, r.2.2) : Str × Nat) = r.2 from rfl] at hlink
      exact hlink
    have hperm2 : List.Perm (allLinks (link r.1 r.2.1 r.2.2 tbl) ++ recs1.map (fun x => x.2))
        (r.2 :: (allLinks tbl ++ recs1.map (fun x => x.2))) :=
      hlink2.append_right (recs1.map (fun x => x.2))
    exact ih (link r.1 r.2.1 r.2.2 tbl) (hperm2.symm.nodup hnd1)

theorem mem_allLinks_of_mem {p : Str × Nat} {tbl : List MasterIdentity} {m : MasterIdentity}
    (hm : m ∈ tbl) (hp : p ∈ m.links) : p ∈ allLinks tbl := by
  rw [allLinks]
  exact List.mem_flatten.mpr ⟨m.links, List.mem_map.mpr ⟨m, hm, rfl⟩, hp⟩

theorem countP_links_le_one {p : Str × Nat} :
    ∀ {tbl : List MasterIdentity}, (allLinks tbl).Nodup →
    tbl.countP (fun m => decide (p ∈ m.links)) ≤ 1 := by
  intro tbl
  induction tbl with
  | nil =>
    intro h
    simp
  | cons m ms ih =>
    intro h
    rw [allLinks_cons, List.nodup_append] at h
    rw [List.countP_cons]
    by_cases hm : p ∈ m.links
    · have hz : ms.countP (fun m2 => decide (p ∈ m2.links)) = 0 := by
        rw [List.countP_eq_zero]
        intro m2 hm2
        simp only [decide_eq_true_eq]
        intro hc
        exact h.2.2 hm (mem_allLinks_of_mem hm2 hc)
      rw [hz, if_pos (decide_eq_true hm)]
    · have hle := ih h.2.1
      rw [if_neg (by simp [hm])]
      omega

/-- C8 (the identity linker is modelled from the spec, section 4.5,
since the notebook never implements the cross-source merge): starting
from the empty master table and linking any stream of records whose
(source name, source row id) pairs are pairwise distinct, every pair is
associated with at most one identity of the resulting master table, so
link uniqueness is an invariant maintained by the linker. -/
theorem link_uniqueness_invariant (recs : List (MatchKeySet × Str × Nat))
    (h : (recs.map (fun r => r.2)).Nodup) (p : Str × Nat) :
    (processRecords recs []).countP (fun m => decide (p ∈ m.links)) ≤ 1 := by
  apply countP_links_le_one
  apply processRecords_nodup
  rw [show allLinks [] = [] from rfl, List.nil_append]
  exact h

/-- Witness for C8: two records with distinct row ids from the same
source, carrying intersecting keys, are linked starting from the empty
table; the theorem applies and bounds the count for a concrete pair. -/
theorem link_uniqueness_invariant_witness :
    (([(⟨['j'], ['e'], [], [], []⟩, (['s'], 0)), (⟨['j'], ['e'], [], [], []⟩, (['s'], 1))] :
        List (MatchKeySet × Str × Nat)).map (fun r => r.2)).Nodup ∧
    (processRecords
        [(⟨['j'], ['e'], [], [], []⟩, (['s'], 0)), (⟨['j'], ['e'], [], [], []⟩, (['s'], 1))]
        []).countP (fun m => decide (((['s'], 0) : Str × Nat) ∈ m.links)) ≤ 1 :=
  ⟨by decide,
    link_uniqueness_invariant
      [(⟨['j'], ['e'], [], [], []⟩, (['s'], 0)), (⟨['j'], ['e'], [], [], []⟩, (['s'], 1))]
      (by decide) (['s'], 0)⟩
